import Mathlib

/-!
Verification of the tool-search-tools-mcp aggregator core.

Shallow embedding of the aggregator's run-time engine (tool registry,
hybrid search, skills executor, dispatcher and facade) together with
proofs about the spec's claims.  JavaScript numbers are modelled as
rationals (reals where a square root is required), JS objects as
association lists, and asynchronous effectful collaborators (the MCP
clients, the embedding model) as explicit oracle functions.
-/

set_option maxHeartbeats 1000000

namespace ToolSearch

/-- Opening curly brace, named once. -/
def lcur : Char := Char.ofNat 123

/-- Closing curly brace. -/
def rcur : Char := Char.ofNat 125

/-- JS-like JSON values, including `undefined` (property access on a missing
key yields `undefined` in JavaScript, and `skills.ts` tests values against
`undefined` explicitly). Numbers are modelled as integers, which covers
every value the claims exercise. -/
inductive Value where
  | vUndefined
  | vNull
  | vBool (b : Bool)
  | vNum (n : Int)
  | vStr (s : String)
  | vArr (elems : List Value)
  | vObj (fields : List (String × Value))

/-- Is this value JavaScript's `undefined`? -/
def Value.isUndefined : Value → Bool
  | .vUndefined => true
  | _ => false

/-- Object/`Record` access, `obj[key]`: the first binding wins, a missing
key yields `undefined`. -/
def ctxGet (ctx : List (String × Value)) (k : String) : Value :=
  match ctx with
  | [] => .vUndefined
  | (k', v) :: rest => if k' = k then v else ctxGet rest k

/-- Assignment `obj[key] = v`: replace the first binding of `k`, or append. -/
def ctxSet (ctx : List (String × Value)) (k : String) (v : Value) :
    List (String × Value) :=
  match ctx with
  | [] => [(k, v)]
  | (k', v') :: rest =>
    if k' = k then (k, v) :: rest else (k', v') :: ctxSet rest k v

/-! ## JavaScript string primitives

The `\s` character class is modelled by its ASCII members, which is all the
repository's inputs use. -/

/-- JS whitespace (`\s`), restricted to its ASCII members. -/
def isJsSpace (c : Char) : Bool :=
  c = ' ' || c = '\t' || c = '\n' || c = '\r' || c = '\x0b' || c = '\x0c'

/-- Model of `String.prototype.toLowerCase` on the Latin and Cyrillic ranges the
repository handles (simple case mapping). -/
def jsLowerChar (c : Char) : Char :=
  if decide ('A' ≤ c ∧ c ≤ 'Z') then Char.ofNat (c.toNat + 32)
  else if decide ('А' ≤ c ∧ c ≤ 'Я') then Char.ofNat (c.toNat + 32)
  else if c = 'Ё' then 'ё'
  else c

/-- Model of `s.toLowerCase()`. -/
def jsLower (s : String) : String :=
  ⟨s.data.map jsLowerChar⟩

/-- Membership in the character class `[\w\sа-яё]` with the `i` flag, i.e.
the characters `normalizeText` keeps. -/
def keptChar (c : Char) : Bool :=
  decide ('a' ≤ c ∧ c ≤ 'z') || decide ('A' ≤ c ∧ c ≤ 'Z') ||
  decide ('0' ≤ c ∧ c ≤ '9') || c = '_' || isJsSpace c ||
  decide ('а' ≤ c ∧ c ≤ 'я') || c = 'ё' ||
  decide ('А' ≤ c ∧ c ≤ 'Я') || c = 'Ё'

/-- Model of `s.includes(sub)` — substring containment. -/
def jsIncludes (s sub : String) : Bool :=
  decide (sub.data <:+: s.data)

/-- Model of `s.trim()`. -/
def jsTrim (s : String) : String :=
  ⟨((s.data.dropWhile isJsSpace).reverse.dropWhile isJsSpace).reverse⟩

/-! ## `src/utils/text.ts` -/

/-- Model of `normalizeText` (`src/utils/text.ts`): lowercase, replace every
character outside `[\w\sа-яё]` by a space, collapse whitespace runs to a
single space, trim. -/
def normalizeText (s : String) : String :=
  let lowered := s.data.map jsLowerChar
  let replaced := lowered.map (fun c => if keptChar c then c else ' ')
  let parts := (replaced.splitOnP isJsSpace).filter (fun w => w ≠ [])
  String.intercalate " " (parts.map List.asString)

/-- Model of `tokenize` (`src/utils/text.ts`): normalise, split on spaces, keep words
of length at least `minLength` (default 4). -/
def tokenize (s : String) (minLength : Nat := 4) : List String :=
  (((normalizeText s).data.splitOnP (· = ' ')).map List.asString).filter
    (fun w => minLength ≤ w.length)

/-- Add a string to an insertion-ordered set (models `Set.add`). -/
def insertUnique (ks : List String) (x : String) : List String :=
  if x ∈ ks then ks else ks ++ [x]

/-- Model of `extractKeywords` (`src/utils/text.ts`): the lowercased whole name, each
`_`/`-`-separated piece of length ≥ 2, and the description's tokens, in
`Set` insertion order. -/
def extractKeywords (name : String) (description : Option String) : List String :=
  let ks := [jsLower name]
  let parts := ((name.data.splitOnP (fun c => c = '_' || c = '-')).map List.asString)
  let ks := parts.foldl (fun ks p => if 2 ≤ p.length then insertUnique ks (jsLower p) else ks) ks
  match description with
  | some d => (tokenize d 4).foldl insertUnique ks
  | none => ks

/-! ## Template substitution (`src/mcp/skills.ts`)

`resolveValue` and the regex `/\x7b\x7b([^\x7d]+)\x7d\x7d/g`. -/

/-- One left-to-right pass of `value.replace(VARIABLE_REGEX, ...)`: at each
position try to match `\x7b\x7b([^\x7d]+)\x7d\x7d`; on a match emit the
replacement (defined variable ↦ `String(value)` via `toStr`, undefined ↦
the trimmed key re-wrapped in braces) and continue after the match,
otherwise emit the character and advance by one.  Structural fuel makes the
recursion kernel-reducible; `replaceTemplates` supplies enough fuel. -/
def replaceAux (look : String → Option String) : Nat → List Char → List Char
  | 0, cs => cs
  | _ + 1, [] => []
  | fuel + 1, c :: cs =>
    if c = lcur then
      match cs with
      | c2 :: rest =>
        if c2 = lcur then
          let run := rest.takeWhile (fun d => d ≠ rcur)
          let rest' := rest.dropWhile (fun d => d ≠ rcur)
          match run, rest' with
          | _ :: _, r1 :: r2 :: tail =>
            if r1 = rcur ∧ r2 = rcur then
              let key := jsTrim ⟨run⟩
              let rep :=
                match look key with
                | some repl => repl.data
                | none => lcur :: lcur :: (key.data ++ [rcur, rcur])
              rep ++ replaceAux look fuel tail
            else c :: replaceAux look fuel cs
          | _, _ => c :: replaceAux look fuel cs
        else c :: replaceAux look fuel cs
      | [] => [c]
    else c :: replaceAux look fuel cs

/-- Model of `s.replace(VARIABLE_REGEX, (_, key) => ...)` with a lookup producing the
replacement string for defined variables. -/
def replaceTemplates (look : String → Option String) (s : String) : String :=
  ⟨replaceAux look (s.data.length + 1) s.data⟩

/-- The whole-string-placeholder test in `resolveValue`:
`value.startsWith('\x7b\x7b') && value.endsWith('\x7d\x7d') &&
value.indexOf('\x7b\x7b', 2) === -1`. -/
def isFullPlaceholder (cs : List Char) : Bool :=
  (match cs with
   | a :: b :: _ => a = lcur && b = lcur
   | _ => false) &&
  (match cs.reverse with
   | a :: b :: _ => a = rcur && b = rcur
   | _ => false) &&
  !(decide ([lcur, lcur] <:+: cs.drop 2))

/-- Model of `value.slice(2, -2).trim()` — the key of a whole-string placeholder. -/
def fullPlaceholderKey (s : String) : String :=
  jsTrim ⟨(s.data.drop 2).dropLast.dropLast⟩

mutual

/-- Model of `String(v)` for a value appearing as an array element in a join:
`null` and `undefined` render empty, otherwise like `String(v)`. -/
def jsElemString : Value → String
  | .vUndefined => ""
  | .vNull => ""
  | .vBool b => cond b "true" "false"
  | .vNum n => toString n
  | .vStr s => s
  | .vArr xs => jsArrTail xs
  | .vObj _ => "[object Object]"

/-- Model of `elems.join(",")` with JS element conversion. -/
def jsArrTail : List Value → String
  | [] => ""
  | [x] => jsElemString x
  | x :: y :: rest => jsElemString x ++ "," ++ jsArrTail (y :: rest)

end

/-- Model of `String(v)`: JavaScript string conversion.  On arrays this is
`join(",")` with `null`/`undefined` elements rendered empty, on plain
objects `"[object Object]"`. -/
def jsToString : Value → String
  | .vUndefined => "undefined"
  | .vNull => "null"
  | .vBool b => cond b "true" "false"
  | .vNum n => toString n
  | .vStr s => s
  | .vArr xs => jsArrTail xs
  | .vObj _ => "[object Object]"

/-- The textual-substitution lookup used by `resolveValue`'s `replace`
callback: a defined variable is replaced by `String(val)`, an undefined
one by `none` (so the trimmed placeholder is kept). -/
def substLook (ctx : List (String × Value)) (key : String) : Option String :=
  let val := ctxGet ctx key
  if val.isUndefined then none else some (jsToString val)

/-- Model of `resolveValue` on a string (`src/mcp/skills.ts`): a whole-string
placeholder with a defined variable returns the raw value; otherwise each
placeholder is textually replaced. -/
def resolveString (ctx : List (String × Value)) (s : String) : Value :=
  if isFullPlaceholder s.data then
    let key := fullPlaceholderKey s
    let w := ctxGet ctx key
    if w.isUndefined then .vStr s else w
  else
    .vStr (replaceTemplates (substLook ctx) s)

mutual

/-- Model of `resolveValue` (`src/mcp/skills.ts`): template substitution over an
arbitrarily nested value. -/
def resolveValue (ctx : List (String × Value)) : Value → Value
  | .vStr s => resolveString ctx s
  | .vArr xs => .vArr (resolveValueList ctx xs)
  | .vObj fs => .vObj (resolveValueFields ctx fs)
  | v => v

/-- Model of `value.map(v => resolveValue(v, context))`. -/
def resolveValueList (ctx : List (String × Value)) : List Value → List Value
  | [] => []
  | x :: xs => resolveValue ctx x :: resolveValueList ctx xs

/-- The `Object.entries` loop of `resolveValue`, building a fresh object. -/
def resolveValueFields (ctx : List (String × Value)) :
    List (String × Value) → List (String × Value)
  | [] => []
  | (k, v) :: fs => (k, resolveValue ctx v) :: resolveValueFields ctx fs

end

example :
    resolveValue [("x", .vArr [.vNum 1, .vNum 2])] (.vStr "\x7b\x7bx\x7d\x7d") =
      .vArr [.vNum 1, .vNum 2] := rfl

example :
    resolveValue [("x", .vArr [.vNum 1, .vNum 2])] (.vStr "a \x7b\x7bx\x7d\x7d b") =
      .vStr "a 1,2 b" := rfl

example :
    resolveValue [] (.vStr "Prefix \x7b\x7bval\x7d\x7d Suffix") =
      .vStr "Prefix \x7b\x7bval\x7d\x7d Suffix" := rfl

example :
    resolveValue [("val", .vStr "Middle")] (.vStr "Prefix \x7b\x7bval\x7d\x7d Suffix") =
      .vStr "Prefix Middle Suffix" := rfl

example : normalizeText "Hello,  WORLD!" = "hello world" := rfl

example : tokenize "Calculates the sum of two numbers." 4 =
    ["calculates", "numbers"] := rfl

example : extractKeywords "calculate_sum" (some "Calculates the sum of two numbers.") =
    ["calculate_sum", "calculate", "sum", "calculates", "numbers"] := rfl

example : extractKeywords "my-tool" none = ["my-tool", "my", "tool"] := rfl

/-! ## Data model (`src/mcp/registry.ts`, `src/mcp/skills.ts`)

Embedding vectors are lists of rationals.  The upstream MCP client handle
is opaque at run time; the model records only its presence (`hasClient`),
and calls through it are oracle functions. -/

/-- A skill step from `skills.yaml` (`SkillStep` in `src/mcp/skills.ts`). -/
structure SkillStep where
  tool : String
  server : Option String := none
  args : Value := .vObj []
  result_var : Option String := none
  description : Option String := none

/-- A validated skill (`Skill` in `src/mcp/skills.ts`). -/
structure Skill where
  name : String
  description : String
  parameters : List (String × Value) := []
  steps : List SkillStep := []

/-- A registry tool record (`MCPTool` in `src/mcp/registry.ts`). -/
structure MCPTool where
  server : String
  name : String
  description : String := ""
  schema : Value := .vUndefined
  schemaKeywords : Option String := none
  normalizedText : Option String := none
  hasClient : Bool := false
  embedding : Option (List ℚ) := none
  isSkill : Bool := false
  steps : Option (List SkillStep) := none

/-- The registry's mutable state: the ordered tool sequence and the
`updatedAt` stamp (`Date.now()` milliseconds, initially `0`). -/
structure RegistryState where
  tools : List MCPTool := []
  updatedAt : Nat := 0

/-- One tool as enumerated by `tools/list` from an upstream client. -/
structure ToolDef where
  name : String
  description : Option String := none
  inputSchema : Value := .vUndefined

/-- Property access `v.key` on a JS value. -/
def getField : Value → String → Value
  | .vObj fs, k => ctxGet fs k
  | _, _ => .vUndefined

/-! ## Registry operations (`src/mcp/registry.ts`) -/

/-- Model of `MCPRegistry.extractToolKeywords`: `extractKeywords(name, description)`
plus, for every schema property, the lowercased property name and the
tokens of its description. -/
def extractToolKeywords (name : String) (description : Option String)
    (inputSchema : Value) : List String :=
  let ks := extractKeywords name description
  match getField inputSchema "properties" with
  | .vObj pfs =>
    pfs.foldl (fun ks pv =>
      let ks := insertUnique ks (jsLower pv.1)
      match getField pv.2 "description" with
      | .vStr d => (tokenize d 4).foldl insertUnique ks
      | _ => ks) ks
  | _ => ks

/-- The text embedded for a tool:
`` `${tool.name} ${tool.description ?? ""} ${keywords.join(" ")}` ``. -/
def embedText (name : String) (description : Option String)
    (keywords : List String) : String :=
  name ++ " " ++ description.getD "" ++ " " ++ String.intercalate " " keywords

/-- Model of `cachedEmbeddings ? cachedEmbeddings[tool.name] : undefined`. -/
def cachedLookup (cached : Option (List (String × List ℚ))) (name : String) :
    Option (List ℚ) :=
  match cached with
  | some m => m.lookup name
  | none => none

/-- Model of `MCPRegistry.getOrGenerateEmbedding`: outside vector mode no embedding;
otherwise the cached vector for the tool name if present, else a freshly
generated one (`isNew`), with a generation failure caught and logged
(no embedding, `isNew` stays `false`). -/
def getOrGenerateEmbedding (gen : String → Except String (List ℚ))
    (cached : Option (List (String × List ℚ))) (isVectorMode : Bool)
    (name : String) (description : Option String) (keywords : List String) :
    Option (List ℚ) × Bool :=
  if !isVectorMode then (none, false)
  else
    match cachedLookup cached name with
    | some e => (some e, false)
    | none =>
      match gen (embedText name description keywords) with
      | .ok e => (some e, true)
      | .error _ => (none, false)

/-- The record pushed by `registerToolsFromClient` for one enumerated
tool. -/
def mkToolRecord (serverName : String) (td : ToolDef) (keywords : List String)
    (embedding : Option (List ℚ)) : MCPTool :=
  { server := serverName
    name := td.name
    description := td.description.getD ""
    schema := td.inputSchema
    schemaKeywords := some (String.intercalate " " keywords)
    normalizedText := some (normalizeText (embedText td.name td.description keywords))
    hasClient := true
    embedding := embedding
    isSkill := false
    steps := none }

/-- Model of `MCPRegistry.registerToolsFromClient`: enumerate tools, resolve each
tool's keywords and embedding, append the records in enumeration order and
stamp `updatedAt := Date.now()` (the `now` argument).  The bounded-batch
`Promise.all` loop preserves enumeration order, so it is modelled by a
map; the cache-persistence side channel (`saveEmbeddingsToCache`) does not
touch registry state and is omitted. -/
def registerToolsFromClient (st : RegistryState) (serverName : String)
    (toolDefs : List ToolDef) (cached : Option (List (String × List ℚ)))
    (isVectorMode : Bool) (gen : String → Except String (List ℚ)) (now : Nat) :
    RegistryState :=
  let recs := toolDefs.map (fun td =>
    let keywords := extractToolKeywords td.name td.description td.inputSchema
    let embIsNew := getOrGenerateEmbedding gen cached isVectorMode td.name td.description keywords
    mkToolRecord serverName td keywords embIsNew.1)
  { tools := st.tools ++ recs, updatedAt := now }

/-- Model of `MCPRegistry.registerSkill`: append a synthetic `internal` record for
the skill (embedding generated in vector mode, failure non-fatal) and stamp
`updatedAt := Date.now()`. -/
def registerSkill (st : RegistryState) (skill : Skill) (isVectorMode : Bool)
    (gen : String → Except String (List ℚ)) (now : Nat) : RegistryState :=
  let keywords := extractToolKeywords skill.name (some skill.description)
    (.vObj [("properties", .vObj skill.parameters)])
  let embedding :=
    if isVectorMode then
      match gen (embedText skill.name (some skill.description) keywords) with
      | .ok e => some e
      | .error _ => none
    else none
  { tools := st.tools ++ [{
      server := "internal"
      name := skill.name
      description := skill.description
      schema := .vObj [("type", .vStr "object"), ("properties", .vObj skill.parameters)]
      schemaKeywords := some (String.intercalate " " keywords)
      normalizedText := some (normalizeText (embedText skill.name (some skill.description) keywords))
      hasClient := false
      embedding := embedding
      isSkill := true
      steps := some skill.steps }]
    updatedAt := now }

/-- Modelled from the spec: `MCPRegistry.getTool(server, name)` — the
secondary `(server, name) → record` index lookup.  Its implementation is
not among the sources (only its tests and callers are); the spec specifies
an O(1) lookup under the invariant that `(server, name)` identifies at most
one record, so it is modelled as the first record with that key. -/
def getTool (tools : List MCPTool) (server name : String) : Option MCPTool :=
  tools.find? (fun t => t.server == server && t.name == name)

/-- Registry states reachable by successful mutations from a fresh
registry (`new MCPRegistry()`), each mutation carrying its own oracle
inputs and clock reading. -/
inductive Reach : RegistryState → Prop where
  | init : Reach {}
  | regTools (st : RegistryState) (serverName : String) (toolDefs : List ToolDef)
      (cached : Option (List (String × List ℚ))) (isVectorMode : Bool)
      (gen : String → Except String (List ℚ)) (now : Nat) :
      Reach st →
      Reach (registerToolsFromClient st serverName toolDefs cached isVectorMode gen now)
  | regSkill (st : RegistryState) (skill : Skill) (isVectorMode : Bool)
      (gen : String → Except String (List ℚ)) (now : Nat) :
      Reach st → Reach (registerSkill st skill isVectorMode gen now)

/-! ## Search engine (`src/mcp/search.ts`) -/

/-- Model of `cosineSimilarity` in `search.ts` restricted to the rational model:
the plain dot product (the vectors are L2-normalised upstream). -/
def dotQ (a b : List ℚ) : ℚ :=
  (List.zipWith (· * ·) a b).sum

/-- Model of `VECTOR_THRESHOLD = 0.35`. -/
def VECTOR_THRESHOLD : ℚ := 35 / 100

/-- Insert a scored tool into a descending-sorted list, after any
equal-scored entries (both the stable `sort((a, b) => b.score - a.score)`
after a push and the strict bubble-up loop place a new entry there). -/
def insertDescQ (x : MCPTool × ℚ) : List (MCPTool × ℚ) → List (MCPTool × ℚ)
  | [] => [x]
  | y :: ys => if y.2 < x.2 then x :: y :: ys else y :: insertDescQ x ys

/-- The top-`k` maintenance step of `vectorSearch`: grow while fewer than
`k` entries, otherwise replace the worst entry when strictly beaten. -/
def topKInsert (k : Nat) (acc : List (MCPTool × ℚ)) (x : MCPTool × ℚ) :
    List (MCPTool × ℚ) :=
  if acc.length < k then insertDescQ x acc
  else
    match acc.getLast? with
    | none => acc
    | some last => if last.2 < x.2 then insertDescQ x acc.dropLast else acc

/-- The per-tool body of `vectorSearch`'s loop: skip tools without an
embedding, score the rest, and keep scores above the threshold. -/
def vectorStep (k : Nat) (qe : List ℚ) (acc : List (MCPTool × ℚ)) (t : MCPTool) :
    List (MCPTool × ℚ) :=
  match t.embedding with
  | none => acc
  | some e =>
    if VECTOR_THRESHOLD < dotQ qe e then topKInsert k acc (t, dotQ qe e) else acc

/-- Model of `vectorSearch` (`src/mcp/search.ts`): empty on `limit <= 0`, otherwise
fold the top-`limit` maintenance over the tools and return the tools of the
kept entries (already in descending score order).  The query embedding is
supplied by the embedding-service oracle. -/
def vectorSearch (tools : List MCPTool) (qe : List ℚ) (limit : Int) :
    List MCPTool :=
  if limit ≤ 0 then []
  else (tools.foldl (vectorStep limit.toNat qe) []).map Prod.fst

/-- One Fuse.js search result: the record and its native fuzzy score. -/
structure FuseRes where
  item : MCPTool
  score : Option ℚ := none

/-- The text `getMatchWeight` scans: `tool.normalizedText ||
normalizeText(...)` (JS truthiness: an empty cached string falls back). -/
def matchText (t : MCPTool) : String :=
  let fallback := normalizeText
    (t.name ++ " " ++ t.description ++ " " ++ t.schemaKeywords.getD "")
  match t.normalizedText with
  | some s => if s = "" then fallback else s
  | none => fallback

/-- Model of `getMatchWeight` (`src/mcp/search.ts`): per query word, `+1` when the
record's text contains it, a further `+0.5` when the lowercased tool name
contains it. -/
def getMatchWeight (t : MCPTool) (queryWords : List String) : ℚ :=
  queryWords.foldl (fun weight word =>
    if jsIncludes (matchText t) word then
      if jsIncludes (jsLower t.name) word then weight + 1 + 1 / 2 else weight + 1
    else weight) 0

/-- Model of `a.score ?? 1`. -/
def fuseScore (r : FuseRes) : ℚ :=
  r.score.getD 1

/-- The comparator of `sortFuzzyResults`: weights further apart than `0.1`
compare descending by weight, otherwise ascending by native score. -/
def fuseCmp (a b : FuseRes × ℚ) : ℚ :=
  if 1 / 10 < |a.2 - b.2| then b.2 - a.2 else fuseScore a.1 - fuseScore b.1

/-- Stable insertion with respect to `fuseCmp` (a later element passes an
earlier one only when the comparator orders it strictly before). -/
def insertCmp (x : FuseRes × ℚ) : List (FuseRes × ℚ) → List (FuseRes × ℚ)
  | [] => [x]
  | y :: ys => if fuseCmp x y < 0 then x :: y :: ys else y :: insertCmp x ys

/-- A stable sort by `fuseCmp`.  All weights are half-integers, so the
comparator is a total preorder and every stable sort (V8's TimSort
included) produces this same list. -/
def stableSortCmp (l : List (FuseRes × ℚ)) : List (FuseRes × ℚ) :=
  l.foldl (fun acc x => insertCmp x acc) []

/-- Model of `sortFuzzyResults` (`src/mcp/search.ts`): pair each result with its
coverage weight over `tokenize(query, 2)`, stable-sort by the two-level
comparator, and strip the weights. -/
def sortFuzzyResults (results : List FuseRes) (query : String) : List FuseRes :=
  (stableSortCmp (results.map
    (fun r => (r, getMatchWeight r.item (tokenize query 2))))).map Prod.fst

/-- The dedup key `` `${server}:${name}` `` used by `fuzzySearch`'s
fallback. -/
def fuseKey (t : MCPTool) : String :=
  t.server ++ ":" ++ t.name

/-- The inner `wordResults.forEach` of `fuzzySearch`: append each record
whose key is not in `seen`, recording its key. -/
def addWordResults (wrs : List FuseRes) (seen : List String)
    (acc : List FuseRes) : List String × List FuseRes :=
  match wrs with
  | [] => (seen, acc)
  | wr :: rest =>
    let key := fuseKey wr.item
    if key ∈ seen then addWordResults rest seen acc
    else addWordResults rest (seen ++ [key]) (acc ++ [wr])

/-- The outer `for (const word of words)` loop of `fuzzySearch`'s
fallback. -/
def mergeTokenResults (fuse : String → List FuseRes) (words : List String)
    (seen : List String) (acc : List FuseRes) : List String × List FuseRes :=
  match words with
  | [] => (seen, acc)
  | w :: ws =>
    let sa := addWordResults (fuse w) seen acc
    mergeTokenResults fuse ws sa.1 sa.2

/-- The combined (pre-sort, pre-truncation) result list of `fuzzySearch`:
the whole-phrase results, extended token by token when the phrase returned
fewer than `limit`. -/
def fuzzyCombined (fuse : String → List FuseRes) (query : String)
    (limit : Nat) : List FuseRes :=
  if (fuse query).length < limit then
    (mergeTokenResults fuse (tokenize query 4)
      ((fuse query).map (fun r => fuseKey r.item)) (fuse query)).2
  else fuse query

/-- Model of `fuzzySearch` (`src/mcp/search.ts`): the Fuse index (and its
registry-version cache) is the `fuse` oracle; combine, sort when nonempty,
truncate to `limit`, return the records. -/
def fuzzySearch (fuse : String → List FuseRes) (query : String)
    (limit : Nat) : List MCPTool :=
  ((if 0 < (fuzzyCombined fuse query limit).length
      then sortFuzzyResults (fuzzyCombined fuse query limit) query
      else fuzzyCombined fuse query limit).take limit).map (fun r => r.item)

/-! ## Skills executor and dispatcher (`src/mcp/skills.ts`,
`src/mcp/executor.ts`) -/

/-- The post-processing before a `result_var` binding: an object whose
`content` is an array with a `type: "text"` element binds that element's
`text` property, anything else binds the whole result. -/
def resultBindValue (result : Value) : Value :=
  match result with
  | .vObj fs =>
    match ctxGet fs "content" with
    | .vArr cs =>
      match cs.find? (fun c =>
        match getField c "type" with
        | .vStr t => t == "text"
        | _ => false) with
      | some tc => getField tc "text"
      | none => result
    | _ => result
  | _ => result

/-- The executor's state: the caller's `args` object and the `context`
object.  JavaScript mutation (`context[step.result_var] = val`) is
modelled by returning an updated state, so a write to the caller's map
would be visible as a changed `callerArgs` component. -/
structure ExecState where
  callerArgs : List (String × Value)
  context : List (String × Value)

/-- The step loop of `executeSkill`: substitute the step's args from the
context, resolve the tool (explicit server via `getTool`, otherwise the
first name match), invoke the dispatcher (the `call` oracle), optionally
bind the post-processed result, and continue with `lastResult` updated.
A step failure aborts the skill. -/
def runSteps (call : MCPTool → Value → Except String Value)
    (registryTools : List MCPTool) :
    List SkillStep → ExecState → Value → Except String (ExecState × Value)
  | [], st, lastResult => .ok (st, lastResult)
  | step :: rest, st, _ =>
    let stepArgs := resolveValue st.context step.args
    let toolRes : Except String MCPTool :=
      match step.server with
      | some srv =>
        match getTool registryTools srv step.tool with
        | some t => .ok t
        | none => .error ("Tool " ++ step.tool ++ " not found on server " ++ srv)
      | none =>
        match registryTools.filter (fun t => t.name == step.tool) with
        | [] => .error ("Tool " ++ step.tool ++ " not found")
        | t :: _ => .ok t
    match toolRes with
    | .error e => .error e
    | .ok tool =>
      match call tool stepArgs with
      | .error e => .error e
      | .ok result =>
        let st' :=
          match step.result_var with
          | some rv => { st with context := ctxSet st.context rv (resultBindValue result) }
          | none => st
        runSteps call registryTools rest st' result

/-- Model of `executeSkill` (`src/mcp/skills.ts`): context initialised from a
shallow copy of `args` (`{ ...args }`), then the step loop; a skill without
steps fails.  The final state is returned alongside `lastResult` so that
the caller's mapping is observable. -/
def executeSkill (call : MCPTool → Value → Except String Value)
    (registryTools : List MCPTool) (skill : MCPTool)
    (args : List (String × Value)) : Except String (ExecState × Value) :=
  match skill.steps with
  | none => .error ("Skill " ++ skill.name ++ " has no steps")
  | some steps => runSteps call registryTools steps ⟨args, args⟩ .vNull

/-! ## Facade (`src/server.ts`) -/

/-- One MCP content element `{type, text}`. -/
structure ContentItem where
  ctype : String
  text : String

/-- An MCP tool-call result: the error flag and the content list.  A
successful upstream result is carried verbatim. -/
structure CallToolResult where
  isError : Bool := false
  content : List ContentItem := []

/-- The `call_tool` handler of `registerInternalTools` (`src/server.ts`):
resolve `(server, toolName)` via `registry.getTool`; a missing tool or a
throwing dispatch produce `isError: true` with one text element, a
successful dispatch is returned verbatim.  `dispatch tool v` models
`executeTool(tool, v, registry)`, with `v = args || \x7b\x7d`. -/
def callToolHandler (registryTools : List MCPTool) (server toolName : String)
    (args : Option Value)
    (dispatch : MCPTool → Value → Except String CallToolResult) :
    CallToolResult :=
  match getTool registryTools server toolName with
  | none =>
    { isError := true
      content := [⟨"text", "Tool " ++ toolName ++ " not found on server " ++ server⟩] }
  | some tool =>
    match dispatch tool (args.getD (.vObj [])) with
    | .ok result => result
    | .error msg =>
      { isError := true
        content := [⟨"text", "Error executing tool " ++ toolName ++ ": " ++ msg⟩] }

/-! ## The two cosine implementations (`src/mcp/search.ts`), over ℝ -/

/-- Model of `cosineSimilarity`: the optimised dot product. -/
noncomputable def cosineSimilarity (a b : List ℝ) : ℝ :=
  (List.zipWith (· * ·) a b).sum

/-- The accumulated `normA` (resp. `normB`) of `cosineSimilarityOld`: the
sum of squares of the entries. -/
noncomputable def sqNorm (a : List ℝ) : ℝ :=
  (a.map (fun x => x * x)).sum

/-- Model of `cosineSimilarityOld`: the full formula
`(a · b) / (||a|| * ||b||)`, with `0` when either norm vanishes. -/
noncomputable def cosineSimilarityOld (a b : List ℝ) : ℝ :=
  if sqNorm a = 0 ∨ sqNorm b = 0 then 0
  else (List.zipWith (· * ·) a b).sum / (Real.sqrt (sqNorm a) * Real.sqrt (sqNorm b))

/-! ## C10 — the dot product refines the full cosine formula -/

/-- C10: for equal-length L2-normalised vectors, the optimised
`cosineSimilarity` (dot product only) agrees with the full formula
`cosineSimilarityOld`, so replacing the latter by the former preserves
every search score. -/
theorem cosineSimilarity_eq_old_on_normalised (a b : List ℝ)
    (hlen : a.length = b.length) (ha : sqNorm a = 1) (hb : sqNorm b = 1) :
    cosineSimilarityOld a b = cosineSimilarity a b := by
  rw [cosineSimilarityOld, cosineSimilarity, ha, hb]
  norm_num

/-- Witness for C10 at the concrete normalised vectors `[1]` and `[1]`. -/
theorem cosineSimilarity_eq_old_on_normalised_witness :
    sqNorm [(1 : ℝ)] = 1 ∧
      cosineSimilarityOld [(1 : ℝ)] [(1 : ℝ)] = cosineSimilarity [(1 : ℝ)] [(1 : ℝ)] :=
  ⟨by simp [sqNorm],
    cosineSimilarity_eq_old_on_normalised [(1 : ℝ)] [(1 : ℝ)] rfl
      (by simp [sqNorm]) (by simp [sqNorm])⟩

/-! ## C1 — `updatedAt` across successful mutations

Both mutators end with `this._updatedAt = Date.now()`; the `now` model
parameter is that clock reading. -/

/-- C1, counterexample: two successful `registerSkill` calls within the
same millisecond (`Date.now()` returning `5` both times) leave `updatedAt`
unchanged, so it is not strictly greater after every successful mutation. -/
theorem updatedAt_not_strict_counterexample :
    (registerSkill
        (registerSkill {} { name := "s1", description := "d" } false
          (fun _ => .error "off") 5)
        { name := "s2", description := "d" } false (fun _ => .error "off") 5).updatedAt =
      (registerSkill {} { name := "s1", description := "d" } false
          (fun _ => .error "off") 5).updatedAt := rfl

/-- C1, amended: a successful mutation sets `updatedAt` to the clock
reading, hence `updatedAt` strictly increases across every successful
`registerToolsFromClient` or `registerSkill` (and hence `connectServer`)
whose `Date.now()` reading exceeds the previous `updatedAt` — in
particular across the first mutation, and whenever the clock advanced. -/
theorem updatedAt_increases_when_clock_advances (st : RegistryState)
    (serverName : String) (toolDefs : List ToolDef)
    (cached : Option (List (String × List ℚ))) (isVectorMode : Bool)
    (gen : String → Except String (List ℚ)) (skill : Skill) (now : Nat)
    (hclock : st.updatedAt < now) :
    (registerToolsFromClient st serverName toolDefs cached isVectorMode gen now).updatedAt = now ∧
    (registerSkill st skill isVectorMode gen now).updatedAt = now ∧
    st.updatedAt <
      (registerToolsFromClient st serverName toolDefs cached isVectorMode gen now).updatedAt ∧
    st.updatedAt < (registerSkill st skill isVectorMode gen now).updatedAt :=
  ⟨rfl, rfl, hclock, hclock⟩

/-- Witness for C1 (amended) at a fresh registry and clock reading `7`. -/
theorem updatedAt_increases_when_clock_advances_witness :
    (RegistryState.updatedAt {} < 7) ∧
      RegistryState.updatedAt {} <
        (registerSkill {} { name := "s1", description := "d" } false
          (fun _ => .error "off") 7).updatedAt :=
  ⟨by decide,
    (updatedAt_increases_when_clock_advances {} "srv" [] none false
      (fun _ => .error "off") { name := "s1", description := "d" } 7
      (by decide)).2.2.2⟩

/-! ## C9 — `call_tool` error handling -/

/-- C9: the `call_tool` handler returns `isError: true` with a single text
content element when `(server, toolName)` resolves to no registered tool or
when dispatch throws, and returns the upstream result verbatim when
dispatch succeeds.  (`getTool` itself is modelled from the spec, its
implementation being absent from the sources.) -/
theorem callToolHandler_cases (registryTools : List MCPTool)
    (server toolName : String) (args : Option Value)
    (dispatch : MCPTool → Value → Except String CallToolResult) :
    (getTool registryTools server toolName = none →
      callToolHandler registryTools server toolName args dispatch =
        { isError := true
          content := [⟨"text", "Tool " ++ toolName ++ " not found on server " ++ server⟩] }) ∧
    (∀ tool msg, getTool registryTools server toolName = some tool →
      dispatch tool (args.getD (.vObj [])) = .error msg →
      callToolHandler registryTools server toolName args dispatch =
        { isError := true
          content := [⟨"text", "Error executing tool " ++ toolName ++ ": " ++ msg⟩] }) ∧
    (∀ tool result, getTool registryTools server toolName = some tool →
      dispatch tool (args.getD (.vObj [])) = .ok result →
      callToolHandler registryTools server toolName args dispatch = result) := by
  refine ⟨fun h => ?_, fun tool msg h hd => ?_, fun tool result h hd => ?_⟩
  · simp [callToolHandler, h]
  · simp [callToolHandler, h, hd]
  · simp [callToolHandler, h, hd]

/-- Witness for C9: an empty registry resolves no tool and the handler
reports the error shape. -/
theorem callToolHandler_cases_witness :
    getTool [] "s" "t" = none ∧
      callToolHandler [] "s" "t" none (fun _ _ => .error "boom") =
        { isError := true
          content := [⟨"text", "Tool t not found on server s"⟩] } :=
  ⟨rfl, (callToolHandler_cases [] "s" "t" none (fun _ _ => .error "boom")).1 rfl⟩

/-! ## C8 — embedding failure does not fail registration -/

/-- C8: in vector mode, when the embedding-cache misses a tool and
generating its embedding fails, `registerToolsFromClient` still registers
every enumerated tool (the count grows by the full enumeration) and the
failing tool's record is present without an embedding. -/
theorem embedding_failure_tool_still_registered (st : RegistryState)
    (serverName : String) (toolDefs : List ToolDef)
    (cached : Option (List (String × List ℚ)))
    (gen : String → Except String (List ℚ)) (now : Nat) (td : ToolDef)
    (msg : String) (hmem : td ∈ toolDefs)
    (hcache : cachedLookup cached td.name = none)
    (hfail : gen (embedText td.name td.description
      (extractToolKeywords td.name td.description td.inputSchema)) = .error msg) :
    (registerToolsFromClient st serverName toolDefs cached true gen now).tools.length =
      st.tools.length + toolDefs.length ∧
    mkToolRecord serverName td
        (extractToolKeywords td.name td.description td.inputSchema) none ∈
      (registerToolsFromClient st serverName toolDefs cached true gen now).tools ∧
    (mkToolRecord serverName td
        (extractToolKeywords td.name td.description td.inputSchema) none).embedding = none := by
  refine ⟨?_, ?_, rfl⟩
  · simp [registerToolsFromClient]
  · have hf : getOrGenerateEmbedding gen cached true td.name td.description
        (extractToolKeywords td.name td.description td.inputSchema) = (none, false) := by
      simp [getOrGenerateEmbedding, hcache, hfail]
    refine List.mem_append_right _ (List.mem_map.mpr ⟨td, hmem, ?_⟩)
    simp [hf]

/-- Witness for C8: a single enumerated tool whose generation always
fails is still registered. -/
theorem embedding_failure_tool_still_registered_witness :
    (⟨"broken-tool", some "Broken tool", .vUndefined⟩ : ToolDef) ∈
        [(⟨"broken-tool", some "Broken tool", .vUndefined⟩ : ToolDef)] ∧
      (registerToolsFromClient {} "test-server"
          [⟨"broken-tool", some "Broken tool", .vUndefined⟩] none true
          (fun _ => .error "API error") 9).tools.length = 0 + 1 :=
  ⟨List.mem_singleton_self _,
    (embedding_failure_tool_still_registered {} "test-server"
      [⟨"broken-tool", some "Broken tool", .vUndefined⟩] none
      (fun _ => .error "API error") 9 ⟨"broken-tool", some "Broken tool", .vUndefined⟩
      "API error" (List.mem_singleton_self _) rfl rfl).1⟩

/-! ## C6 — the executor never mutates the caller's `args` -/

/-- The step loop only ever writes the `context` component: whatever a run
returns, the caller's mapping is the one it started with. -/
theorem runSteps_callerArgs (call : MCPTool → Value → Except String Value)
    (registryTools : List MCPTool) :
    ∀ (steps : List SkillStep) (st : ExecState) (lastResult : Value)
      (st' : ExecState) (v : Value),
      runSteps call registryTools steps st lastResult = .ok (st', v) →
      st'.callerArgs = st.callerArgs := by
  intro steps
  induction steps with
  | nil =>
    intro st lastResult st' v h
    simp [runSteps] at h
    rw [← h.1]
  | cons step rest ih =>
    intro st lastResult st' v h
    rw [runSteps] at h
    split at h
    · exact absurd h (by simp)
    · split at h
      · exact absurd h (by simp)
      · split at h
        · exact (ih _ _ _ _ h).trans rfl
        · exact ih _ _ _ _ h

/-- C6: `executeSkill` initialises its context from a copy of `args` and no
step execution, result binding or template substitution writes to the
caller's mapping: a successful run returns it unchanged. -/
theorem executeSkill_preserves_args (call : MCPTool → Value → Except String Value)
    (registryTools : List MCPTool) (skill : MCPTool)
    (args : List (String × Value)) (st' : ExecState) (v : Value)
    (h : executeSkill call registryTools skill args = .ok (st', v)) :
    st'.callerArgs = args := by
  rw [executeSkill] at h
  split at h
  · exact absurd h (by simp)
  · exact runSteps_callerArgs call registryTools _ _ _ _ _ h

/-- Witness for C6: a one-step echo skill run to completion leaves the
caller's `args` mapping untouched (while the context gained the bound
result variable). -/
theorem executeSkill_preserves_args_witness :
    executeSkill
        (fun _ _ => .ok (.vObj [("content",
          .vArr [.vObj [("type", .vStr "text"), ("text", .vStr "Echo: Hello")]])]))
        [{ server := "srv", name := "echo", hasClient := true }]
        { server := "internal", name := "sk", isSkill := true
          steps := some [{ tool := "echo", server := some "srv"
                           args := .vObj [("message", .vStr "\x7b\x7binput\x7d\x7d")]
                           result_var := some "echoed" }] }
        [("input", .vStr "Hello")] =
      .ok (⟨[("input", .vStr "Hello")],
            [("input", .vStr "Hello"), ("echoed", .vStr "Echo: Hello")]⟩,
           .vObj [("content",
             .vArr [.vObj [("type", .vStr "text"), ("text", .vStr "Echo: Hello")]])]) ∧
      (⟨[("input", .vStr "Hello")],
        [("input", .vStr "Hello"), ("echoed", .vStr "Echo: Hello")]⟩ : ExecState).callerArgs =
        [("input", .vStr "Hello")] :=
  ⟨rfl,
    executeSkill_preserves_args
      (fun _ _ => .ok (.vObj [("content",
        .vArr [.vObj [("type", .vStr "text"), ("text", .vStr "Echo: Hello")]])]))
      [{ server := "srv", name := "echo", hasClient := true }]
      { server := "internal", name := "sk", isSkill := true
        steps := some [{ tool := "echo", server := some "srv"
                         args := .vObj [("message", .vStr "\x7b\x7binput\x7d\x7d")]
                         result_var := some "echoed" }] }
      [("input", .vStr "Hello")]
      ⟨[("input", .vStr "Hello")],
       [("input", .vStr "Hello"), ("echoed", .vStr "Echo: Hello")]⟩
      (.vObj [("content",
        .vArr [.vObj [("type", .vStr "text"), ("text", .vStr "Echo: Hello")]])])
      rfl⟩

/-! ## C5 — template substitution on strings, arrays and objects -/

/-- The substitution the claim describes on a string, as worded: a string
that is exactly a single defined placeholder resolves to the raw bound
value; *any other string* has each placeholder replaced textually
(`String(value)` when defined, the literal `\x7b\x7bname\x7d\x7d` when
undefined).  Defined from the claim's words, to be compared with the
code's `resolveString`. -/
def resolveStringClaim (ctx : List (String × Value)) (s : String) : Value :=
  if isFullPlaceholder s.data && !(ctxGet ctx (fullPlaceholderKey s)).isUndefined then
    ctxGet ctx (fullPlaceholderKey s)
  else
    .vStr (replaceTemplates (substLook ctx) s)

/-- Fact: `resolveValueList` is elementwise substitution. -/
theorem resolveValueList_eq_map (ctx : List (String × Value)) :
    ∀ xs : List Value, resolveValueList ctx xs = xs.map (resolveValue ctx) := by
  intro xs
  induction xs with
  | nil => rfl
  | cons x xs ih => rw [resolveValueList, List.map_cons, ih]

/-- Fact: `resolveValueFields` is valuewise substitution under unchanged keys. -/
theorem resolveValueFields_eq_map (ctx : List (String × Value)) :
    ∀ fs : List (String × Value),
      resolveValueFields ctx fs = fs.map (fun kv => (kv.1, resolveValue ctx kv.2)) := by
  intro fs
  induction fs with
  | nil => rfl
  | cons kv fs ih => rw [resolveValueFields, List.map_cons, ih]

/-- C5, counterexample: on the whole-string placeholder `"\x7b\x7b x \x7d\x7d"`
(inner whitespace) with an empty context, the code returns the string
verbatim, while the claim's "any other string is substituted textually"
branch would normalise it to `"\x7b\x7bx\x7d\x7d"` (the regex replacement
re-wraps the *trimmed* key). -/
theorem resolveValue_claim_counterexample :
    resolveValue [] (.vStr "\x7b\x7b x \x7d\x7d") ≠
      resolveStringClaim [] "\x7b\x7b x \x7d\x7d" := by
  intro h
  exact absurd (Value.vStr.inj h) (by decide)

/-- C5, amended: for every context and value — a string that is exactly a
single placeholder whose variable is defined resolves to the raw bound
value; a string that is exactly a single placeholder whose variable is
undefined is returned verbatim (inner whitespace preserved); every other
string has each placeholder textually replaced (`String(value)` when
defined, the trimmed placeholder kept when undefined); arrays and objects
are substituted recursively into fresh structures. -/
theorem resolveValue_spec (ctx : List (String × Value)) :
    (∀ s : String, isFullPlaceholder s.data = true →
      (ctxGet ctx (fullPlaceholderKey s)).isUndefined = false →
      resolveValue ctx (.vStr s) = ctxGet ctx (fullPlaceholderKey s)) ∧
    (∀ s : String, isFullPlaceholder s.data = true →
      (ctxGet ctx (fullPlaceholderKey s)).isUndefined = true →
      resolveValue ctx (.vStr s) = .vStr s) ∧
    (∀ s : String, isFullPlaceholder s.data = false →
      resolveValue ctx (.vStr s) = .vStr (replaceTemplates (substLook ctx) s)) ∧
    (∀ xs : List Value,
      resolveValue ctx (.vArr xs) = .vArr (xs.map (resolveValue ctx))) ∧
    (∀ fs : List (String × Value),
      resolveValue ctx (.vObj fs) =
        .vObj (fs.map (fun kv => (kv.1, resolveValue ctx kv.2)))) := by
  refine ⟨fun s h1 h2 => ?_, fun s h1 h2 => ?_, fun s h1 => ?_, fun xs => ?_, fun fs => ?_⟩
  · simp [resolveValue, resolveString, h1, h2]
  · simp [resolveValue, resolveString, h1, h2]
  · simp [resolveValue, resolveString, h1]
  · rw [resolveValue, resolveValueList_eq_map]
  · rw [resolveValue, resolveValueFields_eq_map]

/-- Witness for C5 (amended): `"\x7b\x7bx\x7d\x7d"` with `x` bound to the
array `[1, 2]` resolves to the raw array, type preserved. -/
theorem resolveValue_spec_witness :
    isFullPlaceholder ("\x7b\x7bx\x7d\x7d" : String).data = true ∧
      (ctxGet [("x", Value.vArr [.vNum 1, .vNum 2])]
          (fullPlaceholderKey "\x7b\x7bx\x7d\x7d")).isUndefined = false ∧
      resolveValue [("x", Value.vArr [.vNum 1, .vNum 2])] (.vStr "\x7b\x7bx\x7d\x7d") =
        ctxGet [("x", Value.vArr [.vNum 1, .vNum 2])]
          (fullPlaceholderKey "\x7b\x7bx\x7d\x7d") :=
  ⟨rfl, rfl,
    (resolveValue_spec [("x", Value.vArr [.vNum 1, .vNum 2])]).1
      "\x7b\x7bx\x7d\x7d" rfl rfl⟩

/-! ## C2 — vector-mode search -/

/-- Membership through `insertDescQ`. -/
theorem mem_insertDescQ (x y : MCPTool × ℚ) :
    ∀ l : List (MCPTool × ℚ), y ∈ insertDescQ x l ↔ y = x ∨ y ∈ l := by
  intro l
  induction l with
  | nil => simp [insertDescQ]
  | cons z zs ih =>
    rw [insertDescQ]
    split
    · simp
    · simp only [List.mem_cons, ih]
      tauto

/-- Fact: `insertDescQ` grows the list by one. -/
theorem length_insertDescQ (x : MCPTool × ℚ) :
    ∀ l : List (MCPTool × ℚ), (insertDescQ x l).length = l.length + 1 := by
  intro l
  induction l with
  | nil => rfl
  | cons z zs ih =>
    rw [insertDescQ]
    split
    · rfl
    · simp [ih]

/-- Fact: `insertDescQ` preserves the descending order of the scores. -/
theorem sorted_insertDescQ (x : MCPTool × ℚ) :
    ∀ l : List (MCPTool × ℚ), List.Sorted (· ≥ ·) (l.map Prod.snd) →
      List.Sorted (· ≥ ·) ((insertDescQ x l).map Prod.snd) := by
  intro l
  induction l with
  | nil => simp [insertDescQ]
  | cons z zs ih =>
    intro hs
    rw [List.map_cons, List.sorted_cons] at hs
    rw [insertDescQ]
    split
    · rename_i hlt
      rw [List.map_cons, List.sorted_cons]
      refine ⟨?_, List.sorted_cons.mpr hs⟩
      intro b hb
      rw [List.map_cons, List.mem_cons] at hb
      rcases hb with hb | hb
      · exact hb ▸ le_of_lt hlt
      · exact le_trans (hs.1 b hb) (le_of_lt hlt)
    · rename_i hge
      rw [List.map_cons, List.sorted_cons]
      refine ⟨?_, ih hs.2⟩
      intro b hb
      rw [List.mem_map] at hb
      obtain ⟨p, hp, rfl⟩ := hb
      rcases (mem_insertDescQ x p zs).mp hp with rfl | hp
      · exact not_lt.mp hge
      · exact hs.1 p.2 (List.mem_map.mpr ⟨p, hp, rfl⟩)

/-- The three-part invariant of `vectorSearch`'s accumulator is preserved
by one loop iteration: bounded by `k`, scores sorted descending, every
entry a genuinely embedded tool scoring above the threshold. -/
theorem vectorStep_inv (qe : List ℚ) (k : Nat) (t : MCPTool)
    (acc : List (MCPTool × ℚ)) (h1 : acc.length ≤ k)
    (h2 : List.Sorted (· ≥ ·) (acc.map Prod.snd))
    (h3 : ∀ x ∈ acc, ∃ e, x.1.embedding = some e ∧ x.2 = dotQ qe e ∧
      VECTOR_THRESHOLD < x.2) :
    (vectorStep k qe acc t).length ≤ k ∧
    List.Sorted (· ≥ ·) ((vectorStep k qe acc t).map Prod.snd) ∧
    (∀ x ∈ vectorStep k qe acc t, ∃ e, x.1.embedding = some e ∧
      x.2 = dotQ qe e ∧ VECTOR_THRESHOLD < x.2) := by
  rw [vectorStep]
  split
  · exact ⟨h1, h2, h3⟩
  · rename_i e he
    split
    · rename_i hsc
      rw [topKInsert]
      split
      · rename_i hlen
        refine ⟨by rw [length_insertDescQ]; omega, sorted_insertDescQ _ _ h2, ?_⟩
        intro x hx
        rcases (mem_insertDescQ _ x acc).mp hx with rfl | hx
        · exact ⟨e, he, rfl, hsc⟩
        · exact h3 x hx
      · rename_i hlen
        split
        · exact ⟨h1, h2, h3⟩
        · rename_i last hlast
          split
          · have hne : acc ≠ [] := by
              intro hnil
              rw [hnil] at hlast
              exact absurd hlast (by simp)
            have hacclen : 1 ≤ acc.length := by
              cases acc with
              | nil => exact absurd rfl hne
              | cons a l => simp
            refine ⟨?_, ?_, ?_⟩
            · rw [length_insertDescQ, List.length_dropLast]
              omega
            · refine sorted_insertDescQ _ _ ?_
              have hsub : List.Sublist (acc.dropLast.map Prod.snd) (acc.map Prod.snd) :=
                List.Sublist.map _ (List.dropLast_sublist acc)
              exact List.Pairwise.sublist hsub h2
            · intro x hx
              rcases (mem_insertDescQ _ x acc.dropLast).mp hx with rfl | hx
              · exact ⟨e, he, rfl, hsc⟩
              · exact h3 x ((List.dropLast_sublist acc).subset hx)
          · exact ⟨h1, h2, h3⟩
    · exact ⟨h1, h2, h3⟩

/-- The invariant holds of the whole fold. -/
theorem vectorFold_inv (qe : List ℚ) (k : Nat) :
    ∀ (tools : List MCPTool) (acc : List (MCPTool × ℚ)),
      acc.length ≤ k →
      List.Sorted (· ≥ ·) (acc.map Prod.snd) →
      (∀ x ∈ acc, ∃ e, x.1.embedding = some e ∧ x.2 = dotQ qe e ∧
        VECTOR_THRESHOLD < x.2) →
      (tools.foldl (vectorStep k qe) acc).length ≤ k ∧
      List.Sorted (· ≥ ·) ((tools.foldl (vectorStep k qe) acc).map Prod.snd) ∧
      (∀ x ∈ tools.foldl (vectorStep k qe) acc, ∃ e, x.1.embedding = some e ∧
        x.2 = dotQ qe e ∧ VECTOR_THRESHOLD < x.2) := by
  intro tools
  induction tools with
  | nil => intro acc h1 h2 h3; exact ⟨h1, h2, h3⟩
  | cons t ts ih =>
    intro acc h1 h2 h3
    rw [List.foldl_cons]
    obtain ⟨g1, g2, g3⟩ := vectorStep_inv qe k t acc h1 h2 h3
    exact ih _ g1 g2 g3

/-- A pool with no score above the threshold leaves the accumulator
empty. -/
theorem vectorFold_nil (qe : List ℚ) (k : Nat) :
    ∀ tools : List MCPTool,
      (∀ t ∈ tools, ∀ e, t.embedding = some e → dotQ qe e ≤ VECTOR_THRESHOLD) →
      tools.foldl (vectorStep k qe) [] = [] := by
  intro tools
  induction tools with
  | nil => intro _; rfl
  | cons t ts ih =>
    intro h
    rw [List.foldl_cons]
    have hstep : vectorStep k qe [] t = [] := by
      rw [vectorStep]
      split
      · rfl
      · rename_i e he
        split
        · rename_i hsc
          exact absurd (h t (List.mem_cons_self t ts) e he) (not_le.mpr hsc)
        · rfl
    rw [hstep]
    exact ih (fun t' ht' e he => h t' (List.mem_cons_of_mem t ht') e he)

/-- C2: in vector mode, `searchTools` (i.e. `vectorSearch` over the
registry's tools with the query's embedding) returns only tools that carry
an embedding scoring strictly above `0.35` against the query embedding, in
non-increasing score order, at most `limit` of them; and it returns `[]`
for an empty registry, for a pool with no score above the threshold, and
for `limit ≤ 0`. -/
theorem vectorSearch_spec (tools : List MCPTool) (qe : List ℚ) (limit : Int) :
    (∀ t ∈ vectorSearch tools qe limit,
      ∃ e, t.embedding = some e ∧ VECTOR_THRESHOLD < dotQ qe e) ∧
    List.Sorted (· ≥ ·)
      ((vectorSearch tools qe limit).map (fun t => dotQ qe (t.embedding.getD []))) ∧
    (vectorSearch tools qe limit).length ≤ limit.toNat ∧
    (tools = [] → vectorSearch tools qe limit = []) ∧
    (limit ≤ 0 → vectorSearch tools qe limit = []) ∧
    ((∀ t ∈ tools, ∀ e, t.embedding = some e → dotQ qe e ≤ VECTOR_THRESHOLD) →
      vectorSearch tools qe limit = []) := by
  by_cases hlim : limit ≤ 0
  · rw [vectorSearch, if_pos hlim]
    refine ⟨by simp, by simp, by simp, fun _ => rfl, fun _ => rfl, fun _ => rfl⟩
  · rw [vectorSearch, if_neg hlim]
    obtain ⟨g1, g2, g3⟩ :=
      vectorFold_inv qe limit.toNat tools [] (by simp) (by simp) (by simp)
    refine ⟨?_, ?_, ?_, ?_, fun h => absurd h hlim, ?_⟩
    · intro t ht
      rw [List.mem_map] at ht
      obtain ⟨p, hp, rfl⟩ := ht
      obtain ⟨e, he, hs, hth⟩ := g3 p hp
      exact ⟨e, he, hs ▸ hth⟩
    · have hmm : (tools.foldl (vectorStep limit.toNat qe) []).map
          ((fun t => dotQ qe (t.embedding.getD [])) ∘ Prod.fst) =
          (tools.foldl (vectorStep limit.toNat qe) []).map Prod.snd := by
        refine List.map_congr_left ?_
        intro p hp
        obtain ⟨e, he, hs, _⟩ := g3 p hp
        simp [he, ← hs]
      rw [List.map_map, hmm]
      exact g2
    · rw [List.length_map]
      exact g1
    · intro h
      rw [h]
      rfl
    · intro h
      rw [vectorFold_nil qe limit.toNat tools h]
      rfl

/-- Witness for C2: the empty registry yields the empty result at
`limit = 5`. -/
theorem vectorSearch_spec_witness :
    vectorSearch [] [] 5 = [] :=
  (vectorSearch_spec [] [] 5).2.2.2.1 rfl

/-! ## C3 — the two-level fuzzy sort -/

/-- A rational that is a half-integer (every coverage weight is one). -/
def HalfInt (q : ℚ) : Prop :=
  ∃ n : ℕ, q = (n : ℚ) / 2

/-- Coverage weights only ever grow by `1` or `1.5` from `0`, so they are
half-integers. -/
theorem getMatchWeight_halfint (t : MCPTool) (qws : List String) :
    HalfInt (getMatchWeight t qws) := by
  rw [getMatchWeight]
  suffices h : ∀ (l : List String) (w : ℚ), HalfInt w →
      HalfInt (l.foldl (fun weight word =>
        if jsIncludes (matchText t) word then
          if jsIncludes (jsLower t.name) word then weight + 1 + 1 / 2 else weight + 1
        else weight) w) by
    exact h qws 0 ⟨0, by norm_num⟩
  intro l
  induction l with
  | nil => intro w hw; exact hw
  | cons word rest ih =>
    intro w hw
    obtain ⟨n, rfl⟩ := hw
    rw [List.foldl_cons]
    split
    · split
      · exact ih _ ⟨n + 3, by push_cast; ring⟩
      · exact ih _ ⟨n + 2, by push_cast; ring⟩
    · exact ih _ ⟨n, rfl⟩

/-- Two distinct half-integers are at least `1/2` apart, in particular
more than the `0.1` tie tolerance. -/
theorem halfint_gap {x y : ℚ} (hx : HalfInt x) (hy : HalfInt y) (hne : x ≠ y) :
    1 / 10 < |x - y| := by
  obtain ⟨m, rfl⟩ := hx
  obtain ⟨n, rfl⟩ := hy
  have hmn : (m : ℚ) ≠ (n : ℚ) := by
    intro h
    exact hne (by rw [h])
  have h1 : (1 : ℚ) ≤ |(m : ℚ) - (n : ℚ)| := by
    have hmn' : m ≠ n := by
      intro h
      exact hmn (by rw [h])
    rw [le_abs]
    rcases Nat.lt_or_ge m n with h | h
    · refine Or.inr ?_
      have hc : (m : ℚ) + 1 ≤ (n : ℚ) := by exact_mod_cast h
      linarith
    · refine Or.inl ?_
      have h' : n < m := lt_of_le_of_ne h (fun he => hmn' he.symm)
      have hc : (n : ℚ) + 1 ≤ (m : ℚ) := by exact_mod_cast h'
      linarith
  have h2 : |(m : ℚ) / 2 - (n : ℚ) / 2| = |(m : ℚ) - (n : ℚ)| / 2 := by
    rw [div_sub_div_same, abs_div]
    norm_num
  rw [h2]
  linarith

/-- The total preorder the comparator realises on weighted results:
strictly larger weight first, equal weights ordered by native score. -/
def wLexLE (a b : FuseRes × ℚ) : Prop :=
  b.2 < a.2 ∨ (a.2 = b.2 ∧ fuseScore a.1 ≤ fuseScore b.1)

theorem wLexLE_trans {a b c : FuseRes × ℚ} (h1 : wLexLE a b) (h2 : wLexLE b c) :
    wLexLE a c := by
  rcases h1 with h1 | ⟨h1e, h1s⟩
  · rcases h2 with h2 | ⟨h2e, _⟩
    · exact Or.inl (lt_trans h2 h1)
    · exact Or.inl (h2e ▸ h1)
  · rcases h2 with h2 | ⟨h2e, h2s⟩
    · exact Or.inl (h1e ▸ h2)
    · exact Or.inr ⟨h1e.trans h2e, le_trans h1s h2s⟩

theorem wLexLE_total (a b : FuseRes × ℚ) : wLexLE a b ∨ wLexLE b a := by
  rcases lt_trichotomy a.2 b.2 with h | h | h
  · exact Or.inr (Or.inl h)
  · rcases le_total (fuseScore a.1) (fuseScore b.1) with hs | hs
    · exact Or.inl (Or.inr ⟨h, hs⟩)
    · exact Or.inr (Or.inr ⟨h.symm, hs⟩)
  · exact Or.inl (Or.inl h)

/-- On half-integer weights the comparator returns a negative number
exactly when its first argument is strictly earlier in the two-level
order. -/
theorem fuseCmp_neg_iff {a b : FuseRes × ℚ} (ha : HalfInt a.2) (hb : HalfInt b.2) :
    fuseCmp a b < 0 ↔ (b.2 < a.2 ∨ (a.2 = b.2 ∧ fuseScore a.1 < fuseScore b.1)) := by
  rw [fuseCmp]
  by_cases he : a.2 = b.2
  · rw [if_neg (by rw [he, sub_self, abs_zero]; norm_num)]
    constructor
    · intro h
      exact Or.inr ⟨he, by linarith⟩
    · intro h
      rcases h with h | ⟨_, h⟩
      · exact absurd he (ne_of_gt h)
      · linarith
  · rw [if_pos (halfint_gap ha hb he)]
    constructor
    · intro h
      exact Or.inl (by linarith)
    · intro h
      rcases h with h | ⟨h, _⟩
      · linarith
      · exact absurd h he

/-- A non-negative comparator result means the second argument may stay
before the first. -/
theorem fuseCmp_nonneg_le {a b : FuseRes × ℚ} (ha : HalfInt a.2) (hb : HalfInt b.2)
    (h : ¬ fuseCmp a b < 0) : wLexLE b a := by
  rw [fuseCmp_neg_iff ha hb] at h
  push_neg at h
  rcases eq_or_lt_of_le h.1 with he | hlt
  · exact Or.inr ⟨he.symm, h.2 he⟩
  · exact Or.inl hlt

theorem insertCmp_perm (x : FuseRes × ℚ) :
    ∀ l : List (FuseRes × ℚ), (insertCmp x l).Perm (x :: l) := by
  intro l
  induction l with
  | nil => rfl
  | cons y ys ih =>
    rw [insertCmp]
    split
    · rfl
    · exact (ih.cons y).trans (List.Perm.swap x y ys)

theorem insertCmp_pairwise (x : FuseRes × ℚ) :
    ∀ l : List (FuseRes × ℚ), HalfInt x.2 → (∀ y ∈ l, HalfInt y.2) →
      l.Pairwise wLexLE → (insertCmp x l).Pairwise wLexLE := by
  intro l
  induction l with
  | nil => intro _ _ _; simp [insertCmp]
  | cons y ys ih =>
    intro hx hl hp
    rw [List.pairwise_cons] at hp
    rw [insertCmp]
    split
    · rename_i hc
      have hxy : wLexLE x y := by
        rcases (fuseCmp_neg_iff hx (hl y (List.mem_cons_self y ys))).mp hc with h | ⟨he, hs⟩
        · exact Or.inl h
        · exact Or.inr ⟨he, le_of_lt hs⟩
      rw [List.pairwise_cons]
      refine ⟨?_, List.pairwise_cons.mpr hp⟩
      intro z hz
      rw [List.mem_cons] at hz
      rcases hz with rfl | hz
      · exact hxy
      · exact wLexLE_trans hxy (hp.1 z hz)
    · rename_i hc
      rw [List.pairwise_cons]
      constructor
      · intro z hz
        rcases List.mem_cons.mp ((insertCmp_perm x ys).mem_iff.mp hz) with rfl | hz'
        · exact fuseCmp_nonneg_le hx (hl y (List.mem_cons_self y ys)) hc
        · exact hp.1 z hz'
      · exact ih hx (fun z hz => hl z (List.mem_cons_of_mem y hz)) hp.2

theorem stableSortCmp_perm_aux :
    ∀ (l acc : List (FuseRes × ℚ)),
      (l.foldl (fun acc x => insertCmp x acc) acc).Perm (acc ++ l) := by
  intro l
  induction l with
  | nil => intro acc; simp
  | cons x xs ih =>
    intro acc
    rw [List.foldl_cons]
    exact (ih (insertCmp x acc)).trans
      (((insertCmp_perm x acc).append_right xs).trans List.perm_middle.symm)

/-- Stable insertion sorting produces a permutation. -/
theorem stableSortCmp_perm (l : List (FuseRes × ℚ)) :
    (stableSortCmp l).Perm l :=
  stableSortCmp_perm_aux l []

theorem stableSortCmp_pairwise_aux :
    ∀ (l acc : List (FuseRes × ℚ)), (∀ y ∈ l, HalfInt y.2) →
      (∀ y ∈ acc, HalfInt y.2) → acc.Pairwise wLexLE →
      (l.foldl (fun acc x => insertCmp x acc) acc).Pairwise wLexLE := by
  intro l
  induction l with
  | nil => intro acc _ _ hp; exact hp
  | cons x xs ih =>
    intro acc hl hacc hp
    rw [List.foldl_cons]
    refine ih (insertCmp x acc) (fun y hy => hl y (List.mem_cons_of_mem x hy)) ?_ ?_
    · intro y hy
      rcases List.mem_cons.mp ((insertCmp_perm x acc).mem_iff.mp hy) with rfl | hy'
      · exact hl y (List.mem_cons_self y xs)
      · exact hacc y hy'
    · exact insertCmp_pairwise x acc (hl x (List.mem_cons_self x xs)) hacc hp

/-- Stable insertion sorting orders the list by the two-level key. -/
theorem stableSortCmp_pairwise (l : List (FuseRes × ℚ))
    (hl : ∀ y ∈ l, HalfInt y.2) : (stableSortCmp l).Pairwise wLexLE :=
  stableSortCmp_pairwise_aux l [] hl (by simp) (by simp)

/-- C3: the combined fuzzy result list is sorted, before truncation, by the
two-level key — primary the coverage weight over `tokenize(query, 2)`
(higher first, `+1` for a text hit, `+0.5` more for a name hit), with the
order falling through to the native fuzzy score (lower first) whenever two
weights differ by at most `0.1` — and sorting permutes the combined
list. -/
theorem sortFuzzyResults_spec (results : List FuseRes) (query : String) :
    (sortFuzzyResults results query).Perm results ∧
    (sortFuzzyResults results query).Pairwise (fun a b =>
      (1 / 10 < |getMatchWeight a.item (tokenize query 2) -
          getMatchWeight b.item (tokenize query 2)| ∧
        getMatchWeight b.item (tokenize query 2) <
          getMatchWeight a.item (tokenize query 2)) ∨
      (|getMatchWeight a.item (tokenize query 2) -
          getMatchWeight b.item (tokenize query 2)| ≤ 1 / 10 ∧
        fuseScore a ≤ fuseScore b)) := by
  have hhalf : ∀ p ∈ results.map
      (fun r => (r, getMatchWeight r.item (tokenize query 2))), HalfInt p.2 := by
    intro p hp
    rw [List.mem_map] at hp
    obtain ⟨r, _, rfl⟩ := hp
    exact getMatchWeight_halfint r.item (tokenize query 2)
  have hw : ∀ p ∈ stableSortCmp (results.map
      (fun r => (r, getMatchWeight r.item (tokenize query 2)))),
      p.2 = getMatchWeight p.1.item (tokenize query 2) := by
    intro p hp
    have := (stableSortCmp_perm _).mem_iff.mp hp
    rw [List.mem_map] at this
    obtain ⟨r, _, rfl⟩ := this
    rfl
  constructor
  · rw [sortFuzzyResults]
    have h2 : (results.map
        (fun r => (r, getMatchWeight r.item (tokenize query 2)))).map Prod.fst =
        results := by
      rw [List.map_map]
      exact (List.map_congr_left (fun r _ => rfl)).trans (List.map_id results)
    have h3 := (stableSortCmp_perm (results.map
      (fun r => (r, getMatchWeight r.item (tokenize query 2))))).map Prod.fst
    rw [h2] at h3
    exact h3
  · rw [sortFuzzyResults, List.pairwise_map]
    refine (stableSortCmp_pairwise _ hhalf).imp_of_mem ?_
    intro p q hpmem hqmem hle
    have hhp : HalfInt p.2 :=
      hhalf p ((stableSortCmp_perm _).mem_iff.mp hpmem)
    have hhq : HalfInt q.2 :=
      hhalf q ((stableSortCmp_perm _).mem_iff.mp hqmem)
    rw [hw p hpmem] at hhp
    rw [hw q hqmem] at hhq
    rcases hle with hlt | ⟨heq, hs⟩
    · rw [hw p hpmem, hw q hqmem] at hlt
      exact Or.inl ⟨halfint_gap hhp hhq (ne_of_gt hlt), hlt⟩
    · rw [hw p hpmem, hw q hqmem] at heq
      refine Or.inr ⟨?_, hs⟩
      rw [heq, sub_self, abs_zero]
      norm_num

/-! ## C4 — the fuzzy fallback merge -/

/-- Fact: `addWordResults` keeps every record already collected. -/
theorem addWordResults_keeps (wrs : List FuseRes) :
    ∀ (seen : List String) (acc : List FuseRes) (r : FuseRes), r ∈ acc →
      r ∈ (addWordResults wrs seen acc).2 := by
  induction wrs with
  | nil => intro seen acc r hr; exact hr
  | cons wr rest ih =>
    intro seen acc r hr
    rw [addWordResults]
    split
    · exact ih seen acc r hr
    · exact ih _ _ r (List.mem_append_left _ hr)

/-- Everything `addWordResults` collects comes from the accumulator or
from the word's results. -/
theorem addWordResults_src (wrs : List FuseRes) :
    ∀ (seen : List String) (acc : List FuseRes) (r : FuseRes),
      r ∈ (addWordResults wrs seen acc).2 → r ∈ acc ∨ r ∈ wrs := by
  induction wrs with
  | nil => intro seen acc r hr; exact Or.inl hr
  | cons wr rest ih =>
    intro seen acc r hr
    rw [addWordResults] at hr
    split at hr
    · rcases ih _ _ r hr with h | h
      · exact Or.inl h
      · exact Or.inr (List.mem_cons_of_mem wr h)
    · rcases ih _ _ r hr with h | h
      · rcases List.mem_append.mp h with h' | h'
        · exact Or.inl h'
        · rw [List.mem_singleton] at h'
          exact Or.inr (h' ▸ List.mem_cons_self wr rest)
      · exact Or.inr (List.mem_cons_of_mem wr h)

/-- Fact: `addWordResults` preserves the invariant that collected keys are
pairwise distinct and all recorded in `seen`. -/
theorem addWordResults_inv (wrs : List FuseRes) :
    ∀ (seen : List String) (acc : List FuseRes),
      (acc.map (fun r => fuseKey r.item)).Nodup →
      (∀ r ∈ acc, fuseKey r.item ∈ seen) →
      ((addWordResults wrs seen acc).2.map (fun r => fuseKey r.item)).Nodup ∧
      (∀ r ∈ (addWordResults wrs seen acc).2,
        fuseKey r.item ∈ (addWordResults wrs seen acc).1) := by
  induction wrs with
  | nil => intro seen acc h1 h2; exact ⟨h1, h2⟩
  | cons wr rest ih =>
    intro seen acc h1 h2
    rw [addWordResults]
    split
    · exact ih seen acc h1 h2
    · rename_i hnotseen
      refine ih _ _ ?_ ?_
      · rw [List.map_append, List.nodup_append]
        refine ⟨h1, by simp, ?_⟩
        intro k hk
        rw [List.mem_map] at hk
        obtain ⟨r, hr, rfl⟩ := hk
        simp only [List.map_cons, List.map_nil, List.mem_singleton]
        intro he
        exact hnotseen (he ▸ h2 r hr)
      · intro r hr
        rcases List.mem_append.mp hr with h | h
        · exact List.mem_append_left _ (h2 r h)
        · rw [List.mem_singleton] at h
          subst h
          exact List.mem_append_right _ (List.mem_singleton_self _)

/-- Fact: `mergeTokenResults` keeps every record already collected. -/
theorem mergeTokenResults_keeps (fuse : String → List FuseRes) :
    ∀ (words : List String) (seen : List String) (acc : List FuseRes)
      (r : FuseRes), r ∈ acc → r ∈ (mergeTokenResults fuse words seen acc).2 := by
  intro words
  induction words with
  | nil => intro seen acc r hr; exact hr
  | cons w ws ih =>
    intro seen acc r hr
    rw [mergeTokenResults]
    exact ih _ _ r (addWordResults_keeps (fuse w) seen acc r hr)

/-- Everything `mergeTokenResults` collects comes from the accumulator or
from some token's search. -/
theorem mergeTokenResults_src (fuse : String → List FuseRes) :
    ∀ (words : List String) (seen : List String) (acc : List FuseRes)
      (r : FuseRes), r ∈ (mergeTokenResults fuse words seen acc).2 →
      r ∈ acc ∨ ∃ w ∈ words, r ∈ fuse w := by
  intro words
  induction words with
  | nil => intro seen acc r hr; exact Or.inl hr
  | cons w ws ih =>
    intro seen acc r hr
    rw [mergeTokenResults] at hr
    rcases ih _ _ r hr with h | ⟨w', hw', hr'⟩
    · rcases addWordResults_src (fuse w) seen acc r h with h' | h'
      · exact Or.inl h'
      · exact Or.inr ⟨w, List.mem_cons_self w ws, h'⟩
    · exact Or.inr ⟨w', List.mem_cons_of_mem w hw', hr'⟩

/-- Fact: `mergeTokenResults` preserves the key invariant. -/
theorem mergeTokenResults_inv (fuse : String → List FuseRes) :
    ∀ (words : List String) (seen : List String) (acc : List FuseRes),
      (acc.map (fun r => fuseKey r.item)).Nodup →
      (∀ r ∈ acc, fuseKey r.item ∈ seen) →
      ((mergeTokenResults fuse words seen acc).2.map (fun r => fuseKey r.item)).Nodup := by
  intro words
  induction words with
  | nil => intro seen acc h1 _; exact h1
  | cons w ws ih =>
    intro seen acc h1 h2
    rw [mergeTokenResults]
    obtain ⟨g1, g2⟩ := addWordResults_inv (fuse w) seen acc h1 h2
    exact ih _ _ g1 g2

/-- The `fuseCE` oracle for the C4 counterexample: the phrase search finds
a record on server `"a:b"` named `"c"`, the token search for `"alpha"`
finds a record on server `"a"` named `"b:c"` — a different `(server,
name)` pair with the same `` `${server}:${name}` `` string. -/
def fuseCE : String → List FuseRes := fun q =>
  if q = "alpha beta" then
    [{ item := { server := "a:b", name := "c" }, score := some (1 / 2) }]
  else if q = "alpha" then
    [{ item := { server := "a", name := "b:c" }, score := some (3 / 10) }]
  else []

/-- C4, counterexample: with fewer than `limit` phrase results, a record
found by a token search whose `(server, name)` pair matches no record
already present is nevertheless *not* appended, because the dedup key is
the string `` `${server}:${name}` `` and `"a:b" + ":" + "c"` collides with
`"a" + ":" + "b:c"`. -/
theorem fuzzyFallback_pair_dedup_counterexample :
    (fuseCE "alpha beta").length < 5 ∧
    (∃ w ∈ tokenize "alpha beta" 4, ∃ r ∈ fuseCE w,
      r.item.server = "a" ∧ r.item.name = "b:c") ∧
    (∀ r ∈ fuseCE "alpha beta", ¬(r.item.server = "a" ∧ r.item.name = "b:c")) ∧
    (∀ r ∈ fuzzyCombined fuseCE "alpha beta" 5,
      ¬(r.item.server = "a" ∧ r.item.name = "b:c")) := by
  refine ⟨by decide, ⟨"alpha", by decide, ?_⟩, by decide, by decide⟩
  exact ⟨{ item := { server := "a", name := "b:c" }, score := some (3 / 10) },
    List.mem_singleton_self _, rfl, rfl⟩

/-- C4, amended: whenever the whole-phrase query returns fewer than
`limit` results, the query is tokenised with minimum token length 4 and
each token searched individually; every phrase result is kept; everything
returned comes from the phrase search or a token search; a token-found
record is appended only if no record with the same
`` `${server}:${name}` `` *string* key is already present (so the combined
keys stay pairwise distinct when the phrase results' keys were); and the
final list is truncated to at most `limit` entries. -/
theorem fuzzyFallback_spec (fuse : String → List FuseRes) (query : String)
    (limit : Nat) (h : (fuse query).length < limit) :
    (∀ r ∈ fuse query, r ∈ fuzzyCombined fuse query limit) ∧
    (∀ r ∈ fuzzyCombined fuse query limit,
      r ∈ fuse query ∨ ∃ w ∈ tokenize query 4, r ∈ fuse w) ∧
    (((fuse query).map (fun r => fuseKey r.item)).Nodup →
      ((fuzzyCombined fuse query limit).map (fun r => fuseKey r.item)).Nodup) ∧
    (fuzzySearch fuse query limit).length ≤ limit := by
  refine ⟨?_, ?_, ?_, ?_⟩
  · intro r hr
    rw [fuzzyCombined, if_pos h]
    exact mergeTokenResults_keeps fuse _ _ _ r hr
  · intro r hr
    rw [fuzzyCombined, if_pos h] at hr
    exact mergeTokenResults_src fuse _ _ _ r hr
  · intro hnd
    rw [fuzzyCombined, if_pos h]
    refine mergeTokenResults_inv fuse _ _ _ hnd ?_
    intro r hr
    exact List.mem_map_of_mem (fun r => fuseKey r.item) hr
  · rw [fuzzySearch, List.length_map, List.length_take]
    exact min_le_left _ _

/-- Witness for C4 (amended) at the empty oracle, query `"q"`,
`limit = 1`. -/
theorem fuzzyFallback_spec_witness :
    ((fun _ : String => ([] : List FuseRes)) "q").length < 1 ∧
      (fuzzySearch (fun _ => []) "q" 1).length ≤ 1 :=
  ⟨by decide, (fuzzyFallback_spec (fun _ => []) "q" 1 (by decide)).2.2.2⟩

/-! ## C7 — uniqueness of `(server, name)` across registrations -/

/-- C7, counterexample: registering the same skill twice — two successful
`registerSkill` calls — reaches a registry whose tool sequence holds two
records with the same `(server, name)` pair, `("internal", "s")`; no
insertion path deduplicates. -/
theorem registry_dup_key_counterexample :
    Reach (registerSkill
      (registerSkill {} { name := "s", description := "d" } false
        (fun _ => .error "off") 5)
      { name := "s", description := "d" } false (fun _ => .error "off") 6) ∧
    ((registerSkill
        (registerSkill {} { name := "s", description := "d" } false
          (fun _ => .error "off") 5)
        { name := "s", description := "d" } false (fun _ => .error "off") 6).tools.map
      (fun t => (t.server, t.name))) = [("internal", "s"), ("internal", "s")] ∧
    ¬ ((registerSkill
        (registerSkill {} { name := "s", description := "d" } false
          (fun _ => .error "off") 5)
        { name := "s", description := "d" } false (fun _ => .error "off") 6).tools.map
      (fun t => (t.server, t.name))).Nodup :=
  ⟨Reach.regSkill _ _ _ _ _ (Reach.regSkill _ _ _ _ _ Reach.init), rfl, by decide⟩

/-- C7, amended: registration never deduplicates, but it preserves key
uniqueness under the intended usage discipline — a
`registerToolsFromClient` whose enumerated tool names are pairwise
distinct and collide with no existing `(server, name)` key, or a
`registerSkill` whose name is not yet on `"internal"`, keeps the
`(server, name)` keys of the registry pairwise distinct. -/
theorem registry_keys_nodup_preserved (st : RegistryState)
    (h : (st.tools.map (fun t => (t.server, t.name))).Nodup) :
    (∀ (serverName : String) (toolDefs : List ToolDef)
      (cached : Option (List (String × List ℚ))) (isVectorMode : Bool)
      (gen : String → Except String (List ℚ)) (now : Nat),
      (toolDefs.map ToolDef.name).Nodup →
      (∀ td ∈ toolDefs, ∀ t ∈ st.tools, ¬(t.server = serverName ∧ t.name = td.name)) →
      ((registerToolsFromClient st serverName toolDefs cached isVectorMode
        gen now).tools.map (fun t => (t.server, t.name))).Nodup) ∧
    (∀ (skill : Skill) (isVectorMode : Bool)
      (gen : String → Except String (List ℚ)) (now : Nat),
      (∀ t ∈ st.tools, ¬(t.server = "internal" ∧ t.name = skill.name)) →
      ((registerSkill st skill isVectorMode gen now).tools.map
        (fun t => (t.server, t.name))).Nodup) := by
  constructor
  · intro serverName toolDefs cached isVectorMode gen now hnames hfresh
    rw [registerToolsFromClient]
    simp only [List.map_append, List.map_map]
    rw [List.nodup_append]
    refine ⟨h, ?_, ?_⟩
    · have heq : toolDefs.map ((fun t : MCPTool => (t.server, t.name)) ∘ fun td =>
          mkToolRecord serverName td
            (extractToolKeywords td.name td.description td.inputSchema)
            (getOrGenerateEmbedding gen cached isVectorMode td.name td.description
              (extractToolKeywords td.name td.description td.inputSchema)).1) =
          (toolDefs.map ToolDef.name).map (fun n => (serverName, n)) := by
        rw [List.map_map]
        exact List.map_congr_left (fun td _ => rfl)
      rw [heq]
      refine List.Nodup.map ?_ hnames
      intro a b hab
      exact (Prod.mk.injEq _ _ _ _).mp hab |>.2
    · intro k hk1 hk2
      rw [List.mem_map] at hk1 hk2
      obtain ⟨t, ht, rfl⟩ := hk1
      obtain ⟨td, htd, hkey⟩ := hk2
      have hs : t.server = serverName ∧ t.name = td.name := by
        have h1 := congrArg Prod.fst hkey
        have h2 := congrArg Prod.snd hkey
        exact ⟨h1.symm, h2.symm⟩
      exact hfresh td htd t ht hs
  · intro skill isVectorMode gen now hfresh
    rw [registerSkill]
    simp only [List.map_append, List.map_map]
    rw [List.nodup_append]
    refine ⟨h, by simp, ?_⟩
    intro k hk1 hk2
    rw [List.mem_map] at hk1
    obtain ⟨t, ht, rfl⟩ := hk1
    simp only [List.map_cons, List.map_nil, List.mem_singleton] at hk2
    have hs : t.server = "internal" ∧ t.name = skill.name := by
      have h1 := congrArg Prod.fst hk2
      have h2 := congrArg Prod.snd hk2
      exact ⟨h1, h2⟩
    exact hfresh t ht hs

/-- Witness for C7 (amended): registering one skill into the empty
registry keeps the keys pairwise distinct. -/
theorem registry_keys_nodup_preserved_witness :
    ((RegistryState.tools {}).map (fun t => (t.server, t.name))).Nodup ∧
      ((registerSkill {} { name := "s", description := "d" } false
          (fun _ => .error "off") 5).tools.map
        (fun t => (t.server, t.name))).Nodup :=
  ⟨by decide,
    (registry_keys_nodup_preserved {} (by decide)).2
      { name := "s", description := "d" } false (fun _ => .error "off") 5
      (by intro t ht _; exact absurd ht (List.not_mem_nil t))⟩

end ToolSearch
